import Mathlib

/-!
Verification of the packed-string hash table `stx::array_hash`
(`src/array-hash.h`) against its natural-language specification.

Shallow embedding conventions:
* A C string argument `const char *str` is modelled as the list of its bytes
  before the terminating null byte (`List Nat`, each byte nonzero and < 256
  for well-formed inputs; the `Proper` predicate below records that contract).
* `length_type = int16_t` values are modelled as mathematical integers
  produced by `toInt16`, which performs the two's-complement wrap that the
  16-bit signed type performs on conversion and overflow.
* `int` arithmetic used for slot sizes is modelled as unbounded `Int`; the C
  sizes are bounded by allocated memory, and allocation failure is out of
  scope (spec section 7 treats it as a fatal resource error).
* The hash state `int h` is modelled by its 32-bit two's-complement bit
  pattern as a `Nat < 2^32`; `<< 5`, the arithmetic `>> 2`, wrap-around
  addition and `^` are reproduced on that representation, and `char` bytes
  are sign-extended (`schar`) exactly as `str[i]` is on a signed-char target.
* A slot's packed byte buffer is modelled as the list of its records in
  buffer order (`List Rec`); a record keeps the raw value of its stored
  length field (`len`) and the bytes written after it by `strcpy` (`bytes`,
  the payload including its null terminator).  The terminating zero-length
  sentinel of a buffer is implicit in the end of the list; `p = NULL`
  (an empty slot) is `Option.none`.  The record walk performed by `search`
  and the iterator advances record by record, which coincides with the
  byte-by-byte walk of the source whenever every record's length field
  equals its payload byte count (the `ProperRec` invariant); the one claim
  about mismatched length fields (C10) is settled on the written record
  itself, before any walk.
-/

namespace stx

/-- `SLOT_COUNT`: number of slots of the table (a power of two). -/
def SLOT_COUNT : Nat := 2048

/-- Two's-complement wrap of an integer into `int16_t` range, as performed by
conversions to `length_type` and by `int16_t` overflow on the reference
target. -/
def toInt16 (n : Int) : Int :=
  let m := n.emod 65536
  if m < 32768 then m else m - 65536

/-- Value of the `char` `b` (a byte) when read on a signed-`char` target, as
`str[i]` is in `hash`. -/
def schar (b : Nat) : Int :=
  if b < 128 then (b : Int) else (b : Int) - 256

/-- Arithmetic right shift by 2 of a 32-bit two's-complement bit pattern
(`h >> 2` on a negative `int` sign-extends on the reference target). -/
def asr2 (h : Nat) : Nat :=
  if h < 2 ^ 31 then h / 4 else h / 4 + (2 ^ 32 - 2 ^ 30)

/-- One iteration of the hash loop:
`h = h ^ ((h << 5) + (h >> 2) + str[i])` on 32-bit `int`, with the shifts,
the wrap-around additions and the signed byte modelled on the bit-pattern
representation. -/
def hashStep (h : Nat) (b : Nat) : Nat :=
  h ^^^ (((((h * 32) % 2 ^ 32 : Nat) : Int) + (asr2 h : Int) + schar b).emod (2 ^ 32)).toNat

/-- `array_hash::hash(str, length, seed = 23)`: fold `hashStep` over the
`length` hashed bytes starting from the seed, then fold into a slot index
with `h & (SLOT_COUNT - 1)`.  The bytes to hash are passed as the list `s`
(at every call site of the source the hashed bytes are the first
`length` bytes of the string). -/
def hash (s : List Nat) : Nat :=
  (s.foldl hashStep 23) &&& (SLOT_COUNT - 1)

/-- One record of a slot buffer: the raw value stored in its `length_type`
length field, and the bytes `strcpy` wrote after the field (string payload
including the terminating null byte). -/
structure Rec where
  len : Int
  bytes : List Nat
  deriving Repr, DecidableEq

/-- The string payload of a record, without its null terminator (what
dereferencing an iterator positioned at the record denotes). -/
def recStr (r : Rec) : List Nat :=
  r.bytes.dropLast

/-- The record written for `str` by `insert`: the (possibly wrapped) length
field value, then `strcpy(p, str)` writes the bytes of `str` followed by a
null terminator. -/
def newRecord (str : List Nat) (length : Int) : Rec :=
  ⟨length, str ++ [0]⟩

/-- `strcmp(a, b) == 0` for null-terminated byte sequences: the lists agree
up to and including the first null byte.  (Both arguments passed in this
development contain their terminator.) -/
def cstreq : List Nat → List Nat → Bool
  | a :: as, b :: bs => a == b && (a == 0 || cstreq as bs)
  | _, _ => false

/-- The table: `SLOT_COUNT` slot pointers (an empty slot is `none`) and the
element counter `_size`.  The slot array is modelled as a total function on
`Nat` that is `none` from `SLOT_COUNT` on. -/
structure array_hash where
  data : Nat → Option (List Rec)
  _size : Nat

/-- The `array_hash()` constructor: every slot `NULL`, `_size = 0`. -/
def emptyTable : array_hash :=
  ⟨fun _ => none, 0⟩

/-- The slot-scanning loop of `array_hash::search`: walk the records of a
slot, keeping the running byte size `size` of the records already passed
(`w + sizeof(length_type)` each); return `0` on a length-field match whose
`strcmp` succeeds, and the accumulated size at the zero-length sentinel. -/
def searchSlot (str : List Nat) (length : Int) : List Rec → Int → Int
  | [], size => size
  | r :: rs, size =>
    if r.len == length && cstreq (str ++ [0]) r.bytes then 0
    else searchSlot str length rs (size + r.len + 2)

/-- `array_hash::search(str, length, p = NULL)`: with no slot pointer the
slot is found by `hash(str, length - 1)` (the terminator is not hashed; at
this call site those are exactly the bytes of `str`); an empty slot returns
`-1`, otherwise the slot is scanned by the loop above. -/
def search (t : array_hash) (str : List Nat) (length : Int) : Int :=
  match t.data (hash str) with
  | none => -1
  | some recs => searchSlot str length recs 0

/-- `array_hash::find(str)` (length defaulted, hence computed by `strlen`
and incremented for the terminator): true iff `search` returns `0`. -/
def find (t : array_hash) (str : List Nat) : Bool :=
  search t str (toInt16 ((str.length : Int) + 1)) == 0

/-- `array_hash::size()`. -/
def size (t : array_hash) : Nat :=
  t._size

/-- Common body of `array_hash::insert` once the encoded length (`length`,
already incremented for the terminator) and the slot index are fixed: an
occupied slot is scanned first and a zero result aborts the insert;
otherwise the new record is appended after the existing records (the source
reallocates and copies; the buffer contents are what matters here) and the
zero sentinel is rewritten after it; `_size` is incremented. -/
def insertCore (t : array_hash) (str : List Nat) (length : Int) (slot : Nat) :
    array_hash :=
  match t.data slot with
  | some recs =>
    if searchSlot str length recs 0 == 0 then t
    else
      ⟨Function.update t.data slot (some (recs ++ [newRecord str length])),
        t._size + 1⟩
  | none =>
      ⟨Function.update t.data slot (some [newRecord str length]),
        t._size + 1⟩

/-- `array_hash::insert(str)` with the length argument defaulted: the length
is computed by `strlen`, truncated into `length_type`, incremented for the
terminator (wrapping in `int16_t`), and the slot is `hash(str, length - 1)`
(which hashes the bytes of `str`). -/
def insert (t : array_hash) (str : List Nat) : array_hash :=
  insertCore t str (toInt16 ((str.length : Int) + 1)) (hash str)

/-- `array_hash::insert(str, L)` with an explicit nonzero length argument
`L`: no `strlen` is performed, the stored length is `L + 1` wrapped in
`int16_t`, and `hash(str, length - 1)` hashes the first `length - 1` bytes
starting at `str` (faithful for `0 < L` at most `strlen(str)`, where that
read stays inside the string). -/
def insertE (t : array_hash) (str : List Nat) (L : Int) : array_hash :=
  let length := toInt16 (L + 1)
  insertCore t str length (hash (str.take (length - 1).toNat))

/-- A sequence of `insert` calls (default length argument). -/
def insertAll (t : array_hash) (ss : List (List Nat)) : array_hash :=
  ss.foldl insert t

/-- The strings stored in slot `i`, in buffer order. -/
def slotStrs (t : array_hash) (i : Nat) : List (List Nat) :=
  match t.data i with
  | none => []
  | some recs => recs.map recStr

/-- Strings of slots `i, i+1, ...` (fuel-bounded; `m` slots examined). -/
def contentsFromAux (t : array_hash) : Nat → Nat → List (List Nat)
  | 0, _ => []
  | m + 1, i => slotStrs t i ++ contentsFromAux t m (i + 1)

/-- All strings stored in the table, in slot order. -/
def contents (t : array_hash) : List (List Nat) :=
  contentsFromAux t SLOT_COUNT 0

/-- The records of slot `i` (an empty slot contributes `[]`). -/
def getRecs (t : array_hash) (i : Nat) : List Rec :=
  (t.data i).getD []

/-- Total number of records stored across all slots (sentinels excluded). -/
def totalRecords (t : array_hash) : Nat :=
  ((List.range SLOT_COUNT).map (fun i => (getRecs t i).length)).sum

/-- First non-empty slot at index `i` or later, with its records, scanning
at most `m` slots.  Models the slot scans of `begin()` and `operator++`:
their loops exit at a non-`NULL` entry, so a `none` result means the C loop
ran to `SLOT_COUNT` (and, in the source, read `data[SLOT_COUNT]` out of
bounds before stopping there -- or, for `begin()`, kept reading past the
array; see the theorems for claim C8). -/
def nextSlot (t : array_hash) : Nat → Nat → Option (Nat × List Rec)
  | 0, _ => none
  | m + 1, i =>
    match t.data i with
    | some recs => some (i, recs)
    | none => nextSlot t m (i + 1)

/-- `array_hash::iterator`: a slot index and the position `p` inside that
slot's buffer, represented by the list of records from `p` on (`p = NULL`
is the empty list; the end iterator is `⟨SLOT_COUNT, []⟩`). -/
structure Cursor where
  slot : Nat
  rest : List Rec
  deriving Repr, DecidableEq

/-- The end iterator of `array_hash::end()`: `slot = SLOT_COUNT`,
`p = NULL`. -/
def endIter : Cursor :=
  ⟨SLOT_COUNT, []⟩

/-- `array_hash::begin()`: scan from slot `0` for the first non-`NULL`
slot and position at its first record.  The C loop has no bound, so when
every slot is empty (`none` here) it leaves the slot array (claim C8). -/
def iterBegin (t : array_hash) : Option Cursor :=
  match nextSlot t SLOT_COUNT 0 with
  | some (j, recs) => some ⟨j, recs⟩
  | none => none

/-- `iterator::operator++`: step past the current record; if the next
length field is the zero sentinel, scan for the next non-empty slot,
reaching the end state when there is none.  (Applying it to the end state
is not meaningful in the source -- `p` is `NULL` there -- and is modelled
as the identity.) -/
def iterNext (t : array_hash) (c : Cursor) : Cursor :=
  match c.rest with
  | [] => c
  | _ :: rs =>
    match rs with
    | _ :: _ => ⟨c.slot, rs⟩
    | [] =>
      match nextSlot t (SLOT_COUNT - (c.slot + 1)) (c.slot + 1) with
      | some (j, recs) => ⟨j, recs⟩
      | none => ⟨SLOT_COUNT, []⟩

/-- `iterator::operator*`: `NULL` at the end state, otherwise the string
payload just past the length field of the current record. -/
def iterGet (c : Cursor) : Option (List Nat) :=
  c.rest.head?.map recStr

/-- Strings yielded by repeatedly dereferencing and advancing the cursor,
for at most `n` steps (stopping at the end state). -/
def iterList (t : array_hash) : Nat → Cursor → List (List Nat)
  | 0, _ => []
  | n + 1, c =>
    match iterGet c with
    | none => []
    | some s => s :: iterList t n (iterNext t c)

/-- A full forward traversal: dereference and advance from `begin()` until
the end state.  `t._size` advance steps always suffice for a table whose
counter matches its contents.  The `none` branch is the case in which the
source's `begin()` scan leaves the slot array (claim C8). -/
def traverse (t : array_hash) : List (List Nat) :=
  match iterBegin t with
  | none => []
  | some c => iterList t t._size c

/-- Contract for a C-string argument of `insert`/`find`: its bytes are
nonzero bytes, and its encoded length (including the terminator) is
representable in `length_type` (claim C1's representability side
condition). -/
def Proper (s : List Nat) : Prop :=
  (∀ b ∈ s, 0 < b ∧ b < 256) ∧ s.length ≤ 32766

instance (s : List Nat) : Decidable (Proper s) := by
  unfold Proper; infer_instance

/-- A well-formed stored record: its payload is a proper string followed by
exactly one null terminator, and its length field counts the payload bytes
including that terminator. -/
def ProperRec (r : Rec) : Prop :=
  Proper (recStr r) ∧ r.bytes = recStr r ++ [0] ∧
    r.len = ((recStr r).length : Int) + 1

instance (r : Rec) : Decidable (ProperRec r) := by
  unfold ProperRec; infer_instance

/-- Byte size of a slot's records as accumulated by the `search` loop:
each record contributes its length field plus the size of the field
itself. -/
def slotSizeI (recs : List Rec) : Int :=
  (recs.map (fun r => r.len + 2)).sum

/-- Invariant of every table reachable by contract-abiding calls:
slot indices are in range, every non-empty slot holds a non-empty list of
well-formed records that hash to that slot, no slot holds the same string
twice, and the element counter equals the number of stored records. -/
structure Wf (t : array_hash) : Prop where
  bound : ∀ i, SLOT_COUNT ≤ i → t.data i = none
  slots : ∀ i recs, t.data i = some recs →
    recs ≠ [] ∧ (∀ r ∈ recs, ProperRec r ∧ hash (recStr r) = i) ∧
      (recs.map recStr).Nodup
  sizeEq : t._size = (contents t).length

-- ------------------------------------------------------------------
-- Helper lemmas
-- ------------------------------------------------------------------

/-- The slot index is the hash state reduced modulo `SLOT_COUNT`: masking a
two's-complement bit pattern with `SLOT_COUNT - 1` is reduction modulo the
power of two. -/
theorem hash_eq_mod (s : List Nat) :
    hash s = (s.foldl hashStep 23) % SLOT_COUNT := by
  have h := Nat.and_pow_two_sub_one_eq_mod (s.foldl hashStep 23) 11
  have h1 : (2 : Nat) ^ 11 - 1 = 2047 := by norm_num
  have h2 : (2 : Nat) ^ 11 = 2048 := by norm_num
  rw [h1, h2] at h
  exact h

theorem hash_lt (s : List Nat) : hash s < SLOT_COUNT := by
  rw [hash_eq_mod]
  exact Nat.mod_lt _ (by norm_num [SLOT_COUNT])

theorem toInt16_eq_self (n : Int) (h0 : 0 ≤ n) (h1 : n < 32768) :
    toInt16 n = n := by
  unfold toInt16
  have he : n.emod 65536 = n := Int.emod_eq_of_lt h0 (by omega)
  simp only [he]
  rw [if_pos h1]

theorem Proper.zero_not_mem {s : List Nat} (hs : Proper s) : 0 ∉ s :=
  fun h => absurd (hs.1 0 h).1 (lt_irrefl 0)

theorem cstreq_iff {s u : List Nat} (h : 0 ∉ s) (h' : 0 ∉ u) :
    (cstreq (s ++ [0]) (u ++ [0]) = true ↔ s = u) := by
  induction s generalizing u with
  | nil =>
    cases u with
    | nil => simp [cstreq]
    | cons b u' =>
      have hb : b ≠ 0 := fun hb => h' (hb ▸ List.mem_cons_self b u')
      simp [cstreq, Ne.symm hb]
  | cons a s' ih =>
    have ha : a ≠ 0 := fun ha => h (ha ▸ List.mem_cons_self a s')
    cases u with
    | nil => simp [cstreq, ha]
    | cons b u' =>
      have hs' : 0 ∉ s' := fun hm => h (List.mem_cons_of_mem a hm)
      have hu' : 0 ∉ u' := fun hm => h' (List.mem_cons_of_mem b hm)
      simp [cstreq, ha, ih hs' hu']

theorem cstreq_refl {s : List Nat} (h : 0 ∉ s) :
    cstreq (s ++ [0]) (s ++ [0]) = true :=
  (cstreq_iff h h).mpr rfl

/-- A well-formed record matches the scanned string exactly when it stores
that string: the length-field comparison and the `strcmp` together decide
equality of the payloads. -/
theorem rec_match_iff {s : List Nat} {r : Rec} (hs : Proper s)
    (hr : ProperRec r) :
    ((r.len == (s.length : Int) + 1 && cstreq (s ++ [0]) r.bytes) = true ↔
      recStr r = s) := by
  constructor
  · intro hc
    have hcs : cstreq (s ++ [0]) r.bytes = true := by
      have h2 := hc
      simp only [Bool.and_eq_true] at h2
      exact h2.2
    rw [hr.2.1] at hcs
    exact ((cstreq_iff hs.zero_not_mem hr.1.zero_not_mem).mp hcs).symm
  · intro he
    have hlen : r.len = (s.length : Int) + 1 := by rw [hr.2.2, he]
    have hcs : cstreq (s ++ [0]) r.bytes = true := by
      rw [hr.2.1, he]
      exact cstreq_refl hs.zero_not_mem
    simp [hlen, hcs]

theorem slotSizeI_cons (r : Rec) (rs : List Rec) :
    slotSizeI (r :: rs) = (r.len + 2) + slotSizeI rs := by
  simp [slotSizeI]

theorem slotSizeI_nonneg {recs : List Rec}
    (hr : ∀ r ∈ recs, ProperRec r) : 0 ≤ slotSizeI recs := by
  induction recs with
  | nil => simp [slotSizeI]
  | cons r rs ih =>
    have h1 : r.len = ((recStr r).length : Int) + 1 :=
      (hr r (List.mem_cons_self r rs)).2.2
    have h2 := ih fun x hx => hr x (List.mem_cons_of_mem r hx)
    rw [slotSizeI_cons]
    have : (0 : Int) ≤ r.len := by rw [h1]; positivity
    omega

theorem slotSizeI_pos {recs : List Rec} (hne : recs ≠ [])
    (hr : ∀ r ∈ recs, ProperRec r) : 0 < slotSizeI recs := by
  cases recs with
  | nil => exact absurd rfl hne
  | cons r rs =>
    have h1 : r.len = ((recStr r).length : Int) + 1 :=
      (hr r (List.mem_cons_self r rs)).2.2
    have h2 := slotSizeI_nonneg fun x hx => hr x (List.mem_cons_of_mem r hx)
    rw [slotSizeI_cons]
    have : (0 : Int) ≤ r.len := by rw [h1]; positivity
    omega

/-- The `search` scan finds a stored occurrence of `s`: result `0`. -/
theorem searchSlot_eq_zero_of_mem {s : List Nat} {recs : List Rec}
    (hs : Proper s) (hr : ∀ r ∈ recs, ProperRec r)
    (hmem : s ∈ recs.map recStr) (acc : Int) :
    searchSlot s ((s.length : Int) + 1) recs acc = 0 := by
  induction recs generalizing acc with
  | nil => simp at hmem
  | cons r rs ih =>
    by_cases hc :
        (r.len == (s.length : Int) + 1 && cstreq (s ++ [0]) r.bytes) = true
    · simp [searchSlot, hc]
    · have hrr := hr r (List.mem_cons_self r rs)
      have hne : recStr r ≠ s := fun he =>
        hc ((rec_match_iff hs hrr).mpr he)
      have hmem' : s ∈ rs.map recStr := by
        rcases List.mem_map.mp hmem with ⟨x, hx, hxe⟩
        rcases List.mem_cons.mp hx with hx | hx
        · exact absurd (hx ▸ hxe) hne
        · exact List.mem_map.mpr ⟨x, hx, hxe⟩
      simp only [searchSlot]
      rw [if_neg hc]
      exact ih (fun x hx => hr x (List.mem_cons_of_mem r hx)) hmem' _

/-- The `search` scan reaches the sentinel without a match: result is the
accumulated byte size of all records passed. -/
theorem searchSlot_eq_size_of_not_mem {s : List Nat} {recs : List Rec}
    (hs : Proper s) (hr : ∀ r ∈ recs, ProperRec r)
    (hmem : s ∉ recs.map recStr) (acc : Int) :
    searchSlot s ((s.length : Int) + 1) recs acc = acc + slotSizeI recs := by
  induction recs generalizing acc with
  | nil => simp [searchSlot, slotSizeI]
  | cons r rs ih =>
    have hrr := hr r (List.mem_cons_self r rs)
    have hc :
        (r.len == (s.length : Int) + 1 && cstreq (s ++ [0]) r.bytes) ≠ true := by
      intro h
      exact hmem (List.mem_map.mpr
        ⟨r, List.mem_cons_self r rs, (rec_match_iff hs hrr).mp h⟩)
    have hmem' : s ∉ rs.map recStr := by
      intro h
      rcases List.mem_map.mp h with ⟨x, hx, hxe⟩
      exact hmem (List.mem_map.mpr ⟨x, List.mem_cons_of_mem r hx, hxe⟩)
    simp only [searchSlot]
    rw [if_neg hc]
    rw [ih (fun x hx => hr x (List.mem_cons_of_mem r hx)) hmem',
      slotSizeI_cons]
    ring

theorem recStr_newRecord (s : List Nat) (len : Int) :
    recStr (newRecord s len) = s := by
  simp [recStr, newRecord]

theorem ProperRec_newRecord {s : List Nat} (hs : Proper s) :
    ProperRec (newRecord s ((s.length : Int) + 1)) := by
  refine ⟨?_, ?_, ?_⟩ <;> rw [recStr_newRecord] <;> first | exact hs | rfl

theorem slotStrs_eq_map {t : array_hash} {i : Nat} {recs : List Rec}
    (h : t.data i = some recs) : slotStrs t i = recs.map recStr := by
  simp [slotStrs, h]

theorem slotStrs_eq_getRecs (t : array_hash) (i : Nat) :
    slotStrs t i = (getRecs t i).map recStr := by
  cases h : t.data i <;> simp [slotStrs, getRecs, h]

theorem mem_contentsFromAux {t : array_hash} {x : List Nat} :
    ∀ m k, (x ∈ contentsFromAux t m k ↔
      ∃ i, k ≤ i ∧ i < k + m ∧ x ∈ slotStrs t i) := by
  intro m
  induction m with
  | zero =>
    intro k
    simp only [contentsFromAux, List.not_mem_nil, false_iff]
    rintro ⟨i, h1, h2, _⟩
    omega
  | succ m ih =>
    intro k
    simp only [contentsFromAux, List.mem_append, ih (k + 1)]
    constructor
    · rintro (h | ⟨i, h1, h2, h3⟩)
      · exact ⟨k, le_refl k, by omega, h⟩
      · exact ⟨i, by omega, by omega, h3⟩
    · rintro ⟨i, h1, h2, h3⟩
      rcases Nat.eq_or_lt_of_le h1 with he | hlt
      · exact Or.inl (he ▸ h3)
      · exact Or.inr ⟨i, hlt, by omega, h3⟩

theorem mem_contents {t : array_hash} {x : List Nat} :
    x ∈ contents t ↔ ∃ i, i < SLOT_COUNT ∧ x ∈ slotStrs t i := by
  rw [contents, mem_contentsFromAux]
  constructor
  · rintro ⟨i, _, h2, h3⟩
    exact ⟨i, by omega, h3⟩
  · rintro ⟨i, h1, h3⟩
    exact ⟨i, Nat.zero_le i, by omega, h3⟩

theorem hash_eq_of_mem_slotStrs {t : array_hash} (hw : Wf t) {i : Nat}
    {x : List Nat} (hx : x ∈ slotStrs t i) : hash x = i := by
  unfold slotStrs at hx
  cases h : t.data i with
  | none => rw [h] at hx; simp at hx
  | some recs =>
    rw [h] at hx
    rcases List.mem_map.mp hx with ⟨r, hr, he⟩
    have := ((hw.slots i recs h).2.1 r hr).2
    rw [he] at this
    exact this

theorem mem_slotStrs_hash_of_mem_contents {t : array_hash} (hw : Wf t)
    {x : List Nat} (hx : x ∈ contents t) : x ∈ slotStrs t (hash x) := by
  rcases mem_contents.mp hx with ⟨i, _, h3⟩
  rw [hash_eq_of_mem_slotStrs hw h3]
  exact h3

/-- The encoded length `strlen(str) + 1` is not wrapped for strings under
the representability contract. -/
theorem enc_eq {s : List Nat} (hs : Proper s) :
    toInt16 ((s.length : Int) + 1) = (s.length : Int) + 1 :=
  toInt16_eq_self _ (by positivity) (by have := hs.2; omega)

/-- `find` decides membership in the stored contents, for every
well-formed table and proper string. -/
theorem find_iff_mem {t : array_hash} {s : List Nat} (hw : Wf t)
    (hs : Proper s) : (find t s = true ↔ s ∈ contents t) := by
  unfold find search
  rw [enc_eq hs]
  cases h : t.data (hash s) with
  | none =>
    dsimp only
    simp only [beq_iff_eq]
    constructor
    · intro hfalse
      omega
    · intro hmem
      have := mem_slotStrs_hash_of_mem_contents hw hmem
      rw [slotStrs, h] at this
      simp at this
  | some recs =>
    dsimp only
    obtain ⟨hne, hprop, hnd⟩ := hw.slots _ _ h
    by_cases hm : s ∈ recs.map recStr
    · rw [searchSlot_eq_zero_of_mem hs (fun r hr => (hprop r hr).1) hm]
      simp only [beq_self_eq_true, true_iff]
      exact mem_contents.mpr ⟨hash s, hash_lt s, slotStrs_eq_map h ▸ hm⟩
    · rw [searchSlot_eq_size_of_not_mem hs (fun r hr => (hprop r hr).1) hm]
      have hpos := slotSizeI_pos hne (fun r hr => (hprop r hr).1)
      simp only [beq_iff_eq]
      constructor
      · intro hz
        omega
      · intro hmem
        have := mem_slotStrs_hash_of_mem_contents hw hmem
        rw [slotStrs_eq_map h] at this
        exact absurd this hm

/-- A duplicate insert is the identity on the table. -/
theorem insert_eq_self_of_mem {t : array_hash} {s : List Nat} (hw : Wf t)
    (hs : Proper s) (hm : s ∈ contents t) : insert t s = t := by
  have hsl := mem_slotStrs_hash_of_mem_contents hw hm
  unfold insert insertCore
  rw [enc_eq hs]
  cases h : t.data (hash s) with
  | none =>
    rw [slotStrs, h] at hsl
    simp at hsl
  | some recs =>
    dsimp only
    obtain ⟨hne, hprop, hnd⟩ := hw.slots _ _ h
    rw [slotStrs_eq_map h] at hsl
    rw [searchSlot_eq_zero_of_mem hs (fun r hr => (hprop r hr).1) hsl]
    simp

/-- A non-duplicate insert appends the new record to the hashed slot and
increments the counter. -/
theorem insert_eq_of_not_mem {t : array_hash} {s : List Nat} (hw : Wf t)
    (hs : Proper s) (hm : s ∉ contents t) :
    insert t s = ⟨Function.update t.data (hash s)
        (some (getRecs t (hash s) ++ [newRecord s ((s.length : Int) + 1)])),
      t._size + 1⟩ := by
  unfold insert insertCore
  rw [enc_eq hs]
  cases h : t.data (hash s) with
  | none => simp [getRecs, h]
  | some recs =>
    dsimp only
    obtain ⟨hne, hprop, hnd⟩ := hw.slots _ _ h
    have hms : s ∉ recs.map recStr := by
      intro hc
      exact hm (mem_contents.mpr ⟨hash s, hash_lt s, slotStrs_eq_map h ▸ hc⟩)
    rw [searchSlot_eq_size_of_not_mem hs (fun r hr => (hprop r hr).1) hms]
    have hpos := slotSizeI_pos hne (fun r hr => (hprop r hr).1)
    have hcond : ((0 + slotSizeI recs : Int) == 0) = false := by
      simp only [beq_eq_false_iff_ne, ne_eq]
      omega
    rw [hcond]
    simp [getRecs, h]

/-- Slot contents of the table after a non-duplicate insert. -/
theorem slotStrs_insert_of_not_mem {t : array_hash} {s : List Nat}
    (hw : Wf t) (hs : Proper s) (hm : s ∉ contents t) (i : Nat) :
    slotStrs (insert t s) i =
      if i = hash s then slotStrs t (hash s) ++ [s] else slotStrs t i := by
  rw [insert_eq_of_not_mem hw hs hm]
  by_cases hi : i = hash s
  · subst hi
    rw [if_pos rfl]
    simp only [slotStrs, Function.update_same, List.map_append]
    congr 1
    · cases hd : t.data (hash s) <;> simp [getRecs, hd]
    · simp [recStr_newRecord]
  · rw [if_neg hi]
    simp only [slotStrs, Function.update_noteq hi]

theorem contentsFromAux_congr {t t' : array_hash} :
    ∀ m k, (∀ i, k ≤ i → i < k + m → slotStrs t' i = slotStrs t i) →
      contentsFromAux t' m k = contentsFromAux t m k := by
  intro m
  induction m with
  | zero => intro k _; rfl
  | succ m ih =>
    intro k hcong
    show slotStrs t' k ++ _ = slotStrs t k ++ _
    rw [hcong k (le_refl k) (by omega), ih (k + 1)
      (fun i h1 h2 => hcong i (by omega) (by omega))]

theorem length_contentsFromAux_add_one {t t' : array_hash} {h0 : Nat}
    {s : List Nat}
    (hchar : ∀ i, slotStrs t' i =
      if i = h0 then slotStrs t h0 ++ [s] else slotStrs t i) :
    ∀ m k, k ≤ h0 → h0 < k + m →
      (contentsFromAux t' m k).length = (contentsFromAux t m k).length + 1 := by
  intro m
  induction m with
  | zero => intro k h1 h2; omega
  | succ m ih =>
    intro k h1 h2
    show (slotStrs t' k ++ _).length = (slotStrs t k ++ _).length + 1
    by_cases hk : k = h0
    · subst hk
      have hcongr : contentsFromAux t' m (k + 1) = contentsFromAux t m (k + 1) :=
        contentsFromAux_congr m (k + 1) (fun i hi1 hi2 => by
          rw [hchar i, if_neg (by omega)])
      rw [hchar k, if_pos rfl, hcongr]
      simp only [List.length_append, List.length_cons, List.length_nil]
      omega
    · have hih := ih (k + 1) (by omega) (by omega)
      rw [hchar k, if_neg hk]
      simp only [List.length_append, hih]
      omega

/-- Membership in the contents after an insert: exactly the old contents
plus the inserted string. -/
theorem mem_contents_insert {t : array_hash} {s : List Nat} (hw : Wf t)
    (hs : Proper s) (x : List Nat) :
    (x ∈ contents (insert t s) ↔ x = s ∨ x ∈ contents t) := by
  by_cases hm : s ∈ contents t
  · rw [insert_eq_self_of_mem hw hs hm]
    constructor
    · exact Or.inr
    · rintro (rfl | h)
      · exact hm
      · exact h
  · have hchar := slotStrs_insert_of_not_mem hw hs hm
    constructor
    · intro hx
      rcases mem_contents.mp hx with ⟨i, hi, hsl⟩
      rw [hchar i] at hsl
      by_cases hie : i = hash s
      · rw [if_pos hie] at hsl
        rcases List.mem_append.mp hsl with h | h
        · exact Or.inr (mem_contents.mpr ⟨hash s, hash_lt s, h⟩)
        · simp at h
          exact Or.inl h
      · rw [if_neg hie] at hsl
        exact Or.inr (mem_contents.mpr ⟨i, hi, hsl⟩)
    · rintro (rfl | hx)
      · refine mem_contents.mpr ⟨hash x, hash_lt x, ?_⟩
        rw [hchar (hash x), if_pos rfl]
        simp
      · rcases mem_contents.mp hx with ⟨i, hi, hsl⟩
        refine mem_contents.mpr ⟨i, hi, ?_⟩
        rw [hchar i]
        by_cases hie : i = hash s
        · rw [if_pos hie]
          subst hie
          exact List.mem_append_left _ hsl
        · rwa [if_neg hie]

/-- `insert` preserves the table invariant. -/
theorem Wf_insert {t : array_hash} {s : List Nat} (hw : Wf t)
    (hs : Proper s) : Wf (insert t s) := by
  by_cases hm : s ∈ contents t
  · rwa [insert_eq_self_of_mem hw hs hm]
  · have heq := insert_eq_of_not_mem hw hs hm
    have hchar := slotStrs_insert_of_not_mem hw hs hm
    have hdata : (insert t s).data =
        Function.update t.data (hash s)
          (some (getRecs t (hash s) ++ [newRecord s ((s.length : Int) + 1)])) := by
      rw [heq]
    have hsize : (insert t s)._size = t._size + 1 := by
      rw [heq]
    refine ⟨?_, ?_, ?_⟩
    · intro i hi
      rw [hdata]
      rw [Function.update_noteq (by have := hash_lt s; omega)]
      exact hw.bound i hi
    · intro i recs hrecs
      by_cases hie : i = hash s
      · subst hie
        rw [hdata] at hrecs
        simp only [Function.update_same] at hrecs
        have hrecs' : recs =
            getRecs t (hash s) ++ [newRecord s ((s.length : Int) + 1)] :=
          (Option.some.inj hrecs).symm
        subst hrecs'
        refine ⟨by simp, ?_, ?_⟩
        · intro r hr
          rcases List.mem_append.mp hr with h | h
          · have hsome : t.data (hash s) = some (getRecs t (hash s)) := by
              cases hd : t.data (hash s) with
              | none => simp [getRecs, hd] at h
              | some rr => simp [getRecs, hd]
            exact (hw.slots _ _ hsome).2.1 r h
          · simp at h
            subst h
            exact ⟨ProperRec_newRecord hs, by rw [recStr_newRecord]⟩
        · rw [List.map_append]
          simp only [List.map_cons, List.map_nil, recStr_newRecord]
          rw [List.nodup_append]
          refine ⟨?_, by simp, ?_⟩
          · rcases hd : t.data (hash s) with _ | rr
            · simp [getRecs, hd]
            · have := (hw.slots _ _ hd).2.2
              simpa [getRecs, hd] using this
          · intro x hx
            simp only [List.mem_singleton]
            rintro rfl
            rw [← slotStrs_eq_getRecs] at hx
            exact hm (mem_contents.mpr ⟨hash x, hash_lt x, hx⟩)
      · rw [hdata] at hrecs
        have hdi : t.data i = some recs := by
          rwa [Function.update_noteq hie] at hrecs
        exact hw.slots i recs hdi
    · rw [hsize]
      show t._size + 1 = (contentsFromAux (insert t s) SLOT_COUNT 0).length
      rw [length_contentsFromAux_add_one hchar SLOT_COUNT 0 (Nat.zero_le _)
        (by have := hash_lt s; omega)]
      have hsz := hw.sizeEq
      show t._size + 1 = (contents t).length + 1
      omega

theorem contentsFromAux_empty : ∀ m k, contentsFromAux emptyTable m k = [] := by
  intro m
  induction m with
  | zero => intro k; rfl
  | succ m ih =>
    intro k
    show slotStrs emptyTable k ++ contentsFromAux emptyTable m (k + 1) = []
    rw [ih (k + 1)]
    rfl

theorem contents_empty : contents emptyTable = [] :=
  contentsFromAux_empty SLOT_COUNT 0

/-- The freshly constructed table satisfies the invariant. -/
theorem Wf_empty : Wf emptyTable :=
  ⟨fun _ _ => rfl, fun _ _ h => Option.noConfusion h,
    by rw [contents_empty]; rfl⟩

theorem Wf_insertAll : ∀ ss : List (List Nat), ∀ t : array_hash, Wf t →
    (∀ x ∈ ss, Proper x) → Wf (insertAll t ss) := by
  intro ss
  induction ss with
  | nil => intro t hw _; exact hw
  | cons s ss ih =>
    intro t hw hp
    exact ih (insert t s) (Wf_insert hw (hp s (List.mem_cons_self s ss)))
      (fun x hx => hp x (List.mem_cons_of_mem s hx))

theorem mem_contents_insertAll : ∀ ss : List (List Nat), ∀ t : array_hash,
    Wf t → (∀ x ∈ ss, Proper x) → ∀ x,
    (x ∈ contents (insertAll t ss) ↔ x ∈ contents t ∨ x ∈ ss) := by
  intro ss
  induction ss with
  | nil => intro t hw _ x; simp [insertAll]
  | cons s ss ih =>
    intro t hw hp x
    have hs := hp s (List.mem_cons_self s ss)
    have h1 := ih (insert t s) (Wf_insert hw hs)
      (fun y hy => hp y (List.mem_cons_of_mem s hy)) x
    have h2 := mem_contents_insert hw hs x
    show x ∈ contents (insertAll (insert t s) ss) ↔ _
    rw [h1, h2]
    simp only [List.mem_cons]
    tauto

/-- No string is stored twice anywhere in a well-formed table. -/
theorem nodup_contentsFromAux {t : array_hash} (hw : Wf t) :
    ∀ m k, (contentsFromAux t m k).Nodup := by
  intro m
  induction m with
  | zero => intro k; exact List.nodup_nil
  | succ m ih =>
    intro k
    show (slotStrs t k ++ contentsFromAux t m (k + 1)).Nodup
    rw [List.nodup_append]
    refine ⟨?_, ih (k + 1), ?_⟩
    · cases hd : t.data k with
      | none => simp [slotStrs, hd]
      | some recs =>
        rw [slotStrs_eq_map hd]
        exact (hw.slots _ _ hd).2.2
    · intro x hx hx'
      have h1 := hash_eq_of_mem_slotStrs hw hx
      rcases (mem_contentsFromAux m (k + 1)).mp hx' with ⟨i, hi1, _, hi3⟩
      have h2 := hash_eq_of_mem_slotStrs hw hi3
      omega

theorem contents_nodup {t : array_hash} (hw : Wf t) : (contents t).Nodup :=
  nodup_contentsFromAux hw SLOT_COUNT 0

theorem length_slotStrs (t : array_hash) (i : Nat) :
    (slotStrs t i).length = (getRecs t i).length := by
  rw [slotStrs_eq_getRecs, List.length_map]

theorem length_contentsFromAux {t : array_hash} :
    ∀ m k, (contentsFromAux t m k).length =
      ((List.range' k m).map (fun i => (slotStrs t i).length)).sum := by
  intro m
  induction m with
  | zero => intro k; rfl
  | succ m ih =>
    intro k
    show (slotStrs t k ++ contentsFromAux t m (k + 1)).length = _
    rw [List.length_append, ih (k + 1), List.range'_succ k m 1]
    simp

/-- The counter invariant equates `_size` with the total record count
(one record per stored string, sentinels excluded). -/
theorem totalRecords_eq_length_contents (t : array_hash) :
    totalRecords t = (contents t).length := by
  rw [contents, length_contentsFromAux SLOT_COUNT 0, totalRecords,
    List.range_eq_range' SLOT_COUNT]
  exact congrArg List.sum
    (List.map_congr_left fun i _ => (length_slotStrs t i).symm)

/-- A slot scan that found nothing covers a stretch of empty slots. -/
theorem nextSlot_none {t : array_hash} :
    ∀ m k, nextSlot t m k = none → contentsFromAux t m k = [] := by
  intro m
  induction m with
  | zero => intro k _; rfl
  | succ m ih =>
    intro k h
    show slotStrs t k ++ contentsFromAux t m (k + 1) = []
    cases hd : t.data k with
    | some recs =>
      rw [show nextSlot t (m + 1) k = some (k, recs) by simp [nextSlot, hd]]
        at h
      exact Option.noConfusion h
    | none =>
      have h' : nextSlot t m (k + 1) = none := by simpa [nextSlot, hd] using h
      simp [slotStrs, hd, ih (k + 1) h']

/-- A successful slot scan yields the first non-empty slot; the contents of
the scanned stretch decompose accordingly. -/
theorem nextSlot_some {t : array_hash} :
    ∀ m k j recs, nextSlot t m k = some (j, recs) →
      t.data j = some recs ∧ k ≤ j ∧ j < k + m ∧
        contentsFromAux t m k =
          recs.map recStr ++ contentsFromAux t (k + m - (j + 1)) (j + 1) := by
  intro m
  induction m with
  | zero => intro k j recs h; exact Option.noConfusion h
  | succ m ih =>
    intro k j recs h
    cases hd : t.data k with
    | some recs0 =>
      have he : (k, recs0) = (j, recs) := by
        have := h
        simp only [nextSlot, hd] at this
        exact Option.some.inj this
      obtain ⟨rfl, rfl⟩ : k = j ∧ recs0 = recs := Prod.mk.injEq .. ▸ he
      refine ⟨hd, le_refl _, by omega, ?_⟩
      have hfuel : k + (m + 1) - (k + 1) = m := by omega
      show slotStrs t k ++ contentsFromAux t m (k + 1) = _
      rw [hfuel, slotStrs_eq_map hd]
    | none =>
      have h' : nextSlot t m (k + 1) = some (j, recs) := by
        simpa [nextSlot, hd] using h
      obtain ⟨h1, h2, h3, h4⟩ := ih (k + 1) j recs h'
      refine ⟨h1, by omega, by omega, ?_⟩
      have hfuel : k + (m + 1) - (j + 1) = (k + 1) + m - (j + 1) := by omega
      show slotStrs t k ++ contentsFromAux t m (k + 1) = _
      rw [hfuel, ← h4]
      simp [slotStrs, hd]

theorem iterList_endIter (t : array_hash) :
    ∀ n, iterList t n ⟨SLOT_COUNT, []⟩ = [] := by
  intro n
  cases n <;> rfl

/-- Collecting from a cursor yields the records under the cursor and then
the contents of all later slots, provided the fuel covers them. -/
theorem iterList_spec {t : array_hash} (hw : Wf t) :
    ∀ n i rest, rest ≠ [] → i < SLOT_COUNT →
      rest.length +
          (contentsFromAux t (SLOT_COUNT - (i + 1)) (i + 1)).length ≤ n →
      iterList t n ⟨i, rest⟩ =
        rest.map recStr ++ contentsFromAux t (SLOT_COUNT - (i + 1)) (i + 1) := by
  intro n
  induction n with
  | zero =>
    intro i rest hne hi hlen
    cases rest with
    | nil => exact absurd rfl hne
    | cons r rs => simp at hlen
  | succ n ih =>
    intro i rest hne hi hlen
    cases rest with
    | nil => exact absurd rfl hne
    | cons r rs =>
      cases rs with
      | cons r2 rs2 =>
        show recStr r :: iterList t n ⟨i, r2 :: rs2⟩ = _
        rw [ih i (r2 :: rs2) (by simp) hi (by simp at hlen ⊢; omega)]
        simp
      | nil =>
        cases hn : nextSlot t (SLOT_COUNT - (i + 1)) (i + 1) with
        | none =>
          have hc := nextSlot_none _ _ hn
          have hnext : iterNext t ⟨i, [r]⟩ = ⟨SLOT_COUNT, []⟩ := by
            simp [iterNext, hn]
          show recStr r :: iterList t n (iterNext t ⟨i, [r]⟩) = _
          rw [hnext, iterList_endIter, hc]
          simp
        | some p =>
          obtain ⟨j, recs⟩ := p
          obtain ⟨h1, h2, h3, h4⟩ := nextSlot_some _ _ _ _ hn
          have hjne : recs ≠ [] := (hw.slots _ _ h1).1
          have hj : j < SLOT_COUNT := by omega
          have hnext : iterNext t ⟨i, [r]⟩ = ⟨j, recs⟩ := by
            simp [iterNext, hn]
          have hfuel : (i + 1) + (SLOT_COUNT - (i + 1)) - (j + 1) =
              SLOT_COUNT - (j + 1) := by omega
          rw [hfuel] at h4
          have hbound : recs.length +
              (contentsFromAux t (SLOT_COUNT - (j + 1)) (j + 1)).length ≤ n := by
            have := congrArg List.length h4
            simp only [List.length_append, List.length_map] at this
            simp only [List.length_cons] at hlen
            omega
          show recStr r :: iterList t n (iterNext t ⟨i, [r]⟩) = _
          rw [hnext, ih j recs hjne hj hbound, h4]
          simp

/-- On a non-empty well-formed table the full cursor traversal from
`begin()` visits exactly the stored contents, in slot order. -/
theorem traverse_eq_contents {t : array_hash} (hw : Wf t)
    (hne : contents t ≠ []) : traverse t = contents t := by
  unfold traverse iterBegin
  cases hn : nextSlot t SLOT_COUNT 0 with
  | none => exact absurd (nextSlot_none _ _ hn) hne
  | some p =>
    obtain ⟨j, recs⟩ := p
    obtain ⟨h1, h2, h3, h4⟩ := nextSlot_some _ _ _ _ hn
    have hjne : recs ≠ [] := (hw.slots _ _ h1).1
    have hfuel : 0 + SLOT_COUNT - (j + 1) = SLOT_COUNT - (j + 1) := by omega
    rw [hfuel] at h4
    have hc : contents t = recs.map recStr ++
        contentsFromAux t (SLOT_COUNT - (j + 1)) (j + 1) := h4
    have hbound : recs.length +
        (contentsFromAux t (SLOT_COUNT - (j + 1)) (j + 1)).length ≤
          t._size := by
      have := congrArg List.length hc
      simp only [List.length_append, List.length_map] at this
      rw [hw.sizeEq]
      omega
    dsimp only
    rw [iterList_spec hw t._size j recs hjne (by omega) hbound, ← hc]

theorem iterBegin_isSome {t : array_hash} (hne : contents t ≠ []) :
    iterBegin t ≠ none := by
  unfold iterBegin
  cases hn : nextSlot t SLOT_COUNT 0 with
  | none => exact absurd (nextSlot_none _ _ hn) hne
  | some p => simp

theorem nextSlot_none_of_empty {t : array_hash} :
    ∀ m k, (∀ j, k ≤ j → t.data j = none) → nextSlot t m k = none := by
  intro m
  induction m with
  | zero => intro k _; rfl
  | succ m ih =>
    intro k h
    have hk := h k (le_refl k)
    show nextSlot t (m + 1) k = none
    simp only [nextSlot, hk]
    exact ih (k + 1) (fun j hj => h j (by omega))

theorem nextSlot_empty (m k : Nat) : nextSlot emptyTable m k = none :=
  nextSlot_none_of_empty m k (fun _ _ => rfl)

theorem Proper_replicate_97 (n : Nat) (hn : n ≤ 32766) :
    Proper (List.replicate n 97) := by
  refine ⟨?_, by simpa using hn⟩
  intro b hb
  have hb' := List.eq_of_mem_replicate hb
  subst hb'
  exact ⟨by norm_num, by norm_num⟩

/-- Inserting into the empty table stores exactly one record in the hashed
slot, with the (possibly wrapped) encoded length as its length field. -/
theorem insert_emptyTable_data (s : List Nat) :
    (insert emptyTable s).data (hash s) =
      some [newRecord s (toInt16 ((s.length : Int) + 1))] := by
  show Function.update emptyTable.data (hash s)
      (some [newRecord s (toInt16 ((s.length : Int) + 1))]) (hash s) = _
  rw [Function.update_same]

-- ------------------------------------------------------------------
-- Claim theorems
-- ------------------------------------------------------------------

/-- Claim C1: for every finite sequence of inserts on a table created
empty (each argument a null-free string whose encoded length including the
terminator is representable in `length_type`), `find` returns true exactly
for the strings equal to one of the inserted ones and false for all
others. -/
theorem claim_C1_find_membership (ss : List (List Nat)) (s : List Nat)
    (hss : ∀ x ∈ ss, Proper x) (hs : Proper s) :
    (find (insertAll emptyTable ss) s = true ↔ s ∈ ss) := by
  have hw := Wf_insertAll ss emptyTable Wf_empty hss
  rw [find_iff_mem hw hs,
    mem_contents_insertAll ss emptyTable Wf_empty hss s, contents_empty]
  simp

theorem claim_C1_witness :
    find (insertAll emptyTable [[97], [98, 99]]) [97] = true ∧
      find (insertAll emptyTable [[97], [98, 99]]) [100] = false := by
  constructor
  · exact (claim_C1_find_membership [[97], [98, 99]] [97] (by decide)
      (by decide)).mpr (by decide)
  · cases hf : find (insertAll emptyTable [[97], [98, 99]]) [100] with
    | false => rfl
    | true =>
      have hmem := (claim_C1_find_membership [[97], [98, 99]] [100]
        (by decide) (by decide)).mp hf
      exact absurd hmem (by decide)

/-- Claim C2, counterexample to the "including the table with no
insertions" part: on the empty table the `begin()` loop, whose only exit
is a non-`NULL` slot entry, finds no non-empty slot among `0..SLOT_COUNT-1`
(`nextSlot` is `none`), so the source scans past the end of the slot array
(undefined behaviour) instead of yielding an empty traversal. -/
theorem claim_C2_counterexample :
    insertAll emptyTable [] = emptyTable ∧
      iterBegin (insertAll emptyTable []) = none := by
  refine ⟨rfl, ?_⟩
  show iterBegin emptyTable = none
  unfold iterBegin
  rw [nextSlot_empty SLOT_COUNT 0]

/-- Claim C2 (amended to the tables built by at least one insertion): the
forward traversal from `begin()`, advancing with `operator++` and
dereferencing at each position, yields exactly the distinct inserted
strings, each exactly once, regardless of insertion order. -/
theorem claim_C2_traversal (ss : List (List Nat))
    (hss : ∀ x ∈ ss, Proper x) (hne : ss ≠ []) :
    iterBegin (insertAll emptyTable ss) ≠ none ∧
      (traverse (insertAll emptyTable ss)).Nodup ∧
      ∀ s, (s ∈ traverse (insertAll emptyTable ss) ↔ s ∈ ss) := by
  have hw := Wf_insertAll ss emptyTable Wf_empty hss
  have hmem : ∀ x, x ∈ contents (insertAll emptyTable ss) ↔ x ∈ ss := by
    intro x
    rw [mem_contents_insertAll ss emptyTable Wf_empty hss x, contents_empty]
    simp
  have hcne : contents (insertAll emptyTable ss) ≠ [] := by
    cases ss with
    | nil => exact absurd rfl hne
    | cons s0 ss0 =>
      exact List.ne_nil_of_mem ((hmem s0).mpr (List.mem_cons_self s0 ss0))
  have ht := traverse_eq_contents hw hcne
  refine ⟨iterBegin_isSome hcne, ?_, ?_⟩
  · rw [ht]
    exact contents_nodup hw
  · intro s
    rw [ht]
    exact hmem s

theorem claim_C2_witness :
    ([97] ∈ traverse (insertAll emptyTable [[97]])) ∧
      (traverse (insertAll emptyTable [[97]])).Nodup := by
  have h := claim_C2_traversal [[97]] (by decide) (by decide)
  exact ⟨(h.2.2 [97]).mpr (by decide), h.2.1⟩

/-- Claim C3: the code surfaces no length-overflow error.  A 32767-byte
string has encoded length 32768, which `int16_t` wraps to `-32768`; insert
proceeds anyway, storing a record with a negative length field and
incrementing the counter (the subsequent allocation size in the source is
negative -- undefined behaviour), instead of reporting a length-overflow
error.  A 32766-byte string (encoded length exactly 32767, the maximum)
is inserted intact and found again. -/
theorem claim_C3_overflow_wrap :
    toInt16 ((32767 : Int) + 1) = -32768 ∧
      (insert emptyTable (List.replicate 32767 97)).data
          (hash (List.replicate 32767 97)) =
        some [{ len := -32768, bytes := List.replicate 32767 97 ++ [0] }] ∧
      (insert emptyTable (List.replicate 32767 97))._size = 1 ∧
      (insert emptyTable (List.replicate 32766 97)).data
          (hash (List.replicate 32766 97)) =
        some [{ len := 32767, bytes := List.replicate 32766 97 ++ [0] }] ∧
      find (insert emptyTable (List.replicate 32766 97))
        (List.replicate 32766 97) = true := by
  refine ⟨by decide, ?_, rfl, ?_, ?_⟩
  · rw [insert_emptyTable_data (List.replicate 32767 97)]
    rw [show (((List.replicate 32767 97).length : Int) + 1) = 32768 by
      rw [List.length_replicate]; norm_num]
    rw [show toInt16 32768 = -32768 by decide]
    rfl
  · rw [insert_emptyTable_data (List.replicate 32766 97)]
    rw [show (((List.replicate 32766 97).length : Int) + 1) = 32767 by
      rw [List.length_replicate]; norm_num]
    rw [show toInt16 32767 = 32767 by decide]
    rfl
  · have hp := Proper_replicate_97 32766 (le_refl _)
    exact (find_iff_mem (Wf_insert Wf_empty hp) hp).mpr
      ((mem_contents_insert Wf_empty hp _).mpr (Or.inl rfl))

/-- Claim C4: inserting an already-stored string is a no-op -- the whole
table (hence every slot's record sequence) is unchanged, `size()` is
unchanged, and `find` answers true before and after the second insert. -/
theorem claim_C4_idempotent (t : array_hash) (s : List Nat) (hw : Wf t)
    (hs : Proper s) :
    insert (insert t s) s = insert t s ∧
      find (insert t s) s = true ∧
      find (insert (insert t s) s) s = true ∧
      (insert (insert t s) s)._size = (insert t s)._size := by
  have hw1 := Wf_insert hw hs
  have hmem : s ∈ contents (insert t s) :=
    (mem_contents_insert hw hs s).mpr (Or.inl rfl)
  have heq := insert_eq_self_of_mem hw1 hs hmem
  refine ⟨heq, (find_iff_mem hw1 hs).mpr hmem, ?_, by rw [heq]⟩
  rw [heq]
  exact (find_iff_mem hw1 hs).mpr hmem

theorem claim_C4_witness :
    insert (insert emptyTable [97]) [97] = insert emptyTable [97] ∧
      find (insert emptyTable [97]) [97] = true ∧
      find (insert (insert emptyTable [97]) [97]) [97] = true ∧
      (insert (insert emptyTable [97]) [97])._size =
        (insert emptyTable [97])._size :=
  claim_C4_idempotent emptyTable [97] Wf_empty (by decide)

/-- Claim C5: after any sequence of inserts from the empty table (and so
at every point of any insert/find sequence, `find` being read-only),
`size()` equals the number of distinct strings inserted so far, and that
count equals the total number of records across all slots. -/
theorem claim_C5_size (ss : List (List Nat)) (hss : ∀ x ∈ ss, Proper x) :
    (insertAll emptyTable ss)._size = ss.dedup.length ∧
      (insertAll emptyTable ss)._size =
        totalRecords (insertAll emptyTable ss) := by
  have hw := Wf_insertAll ss emptyTable Wf_empty hss
  have hmem : ∀ x, x ∈ contents (insertAll emptyTable ss) ↔ x ∈ ss.dedup := by
    intro x
    rw [mem_contents_insertAll ss emptyTable Wf_empty hss x, contents_empty,
      List.mem_dedup]
    simp
  have hperm : (contents (insertAll emptyTable ss)).Perm ss.dedup :=
    (List.perm_ext_iff_of_nodup (contents_nodup hw)
      (List.nodup_dedup ss)).mpr hmem
  refine ⟨?_, ?_⟩
  · rw [hw.sizeEq]
    exact hperm.length_eq
  · rw [hw.sizeEq, totalRecords_eq_length_contents]

theorem claim_C5_witness :
    (insertAll emptyTable [[97], [97], [98]])._size =
        [[97], [97], [98]].dedup.length ∧
      (insertAll emptyTable [[97], [97], [98]])._size =
        totalRecords (insertAll emptyTable [[97], [97], [98]]) :=
  claim_C5_size [[97], [97], [98]] (by decide)

/-- Claim C6, counterexample to the empty-bucket part: when `search` is
called without a slot pointer and the hashed slot does not exist, it
returns `-1`, not the total byte size of the slot's (zero) existing
records. -/
theorem claim_C6_counterexample :
    search emptyTable [97] 2 = -1 ∧ slotSizeI [] = 0 ∧ (-1 : Int) ≠ 0 :=
  ⟨rfl, rfl, by decide⟩

/-- Claim C6 (amended in the empty-bucket case): on a well-formed occupied
slot, `search` returns `0` exactly when the slot stores a record whose
string equals the query, and otherwise the total byte size of the slot's
records (2-byte length prefix plus payload each); when called without a
slot pointer and the hashed slot is empty it returns `-1`, a nonzero
"bucket doesn't exist" answer distinct from the size report. -/
theorem claim_C6_search (s : List Nat) (recs : List Rec) (t : array_hash)
    (hs : Proper s) (hr : ∀ r ∈ recs, ProperRec r) (hne : recs ≠ []) :
    ((searchSlot s ((s.length : Int) + 1) recs 0 = 0) ↔
        s ∈ recs.map recStr) ∧
      (s ∉ recs.map recStr →
        searchSlot s ((s.length : Int) + 1) recs 0 =
          (recs.map (fun r => ((r.bytes.length : Int) + 2))).sum) ∧
      (t.data (hash s) = none → search t s ((s.length : Int) + 1) = -1) := by
  refine ⟨⟨?_, fun hm => searchSlot_eq_zero_of_mem hs hr hm 0⟩, ?_, ?_⟩
  · intro h0
    by_contra hnm
    rw [searchSlot_eq_size_of_not_mem hs hr hnm] at h0
    have := slotSizeI_pos hne hr
    omega
  · intro hnm
    rw [searchSlot_eq_size_of_not_mem hs hr hnm, zero_add]
    unfold slotSizeI
    congr 1
    apply List.map_congr_left
    intro r hrr
    have h := hr r hrr
    rw [h.2.2, h.2.1]
    simp only [List.length_append, List.length_cons, List.length_nil]
    push_cast
    ring
  · intro hd
    simp [search, hd]

theorem claim_C6_witness :
    searchSlot [97] (([97].length : Int) + 1) [newRecord [98] 2] 0 =
        ([newRecord [98] 2].map (fun r => ((r.bytes.length : Int) + 2))).sum ∧
      search emptyTable [97] (([97].length : Int) + 1) = -1 := by
  have h := claim_C6_search [97] [newRecord [98] 2] emptyTable (by decide)
    (by decide) (by decide)
  exact ⟨h.2.1 (by decide), h.2.2 rfl⟩

/-- Claim C7: the slot index of a string is the deterministic rolling hash
`h = 23; h = h XOR ((h << 5) + (h >> 2) + b)` over its bytes (terminator
excluded), masked with `SLOT_COUNT - 1`, which equals reduction modulo
`SLOT_COUNT`; the same index addresses the slot at insert and at lookup --
`insert` touches no other slot. -/
theorem claim_C7_hash (s : List Nat) (t : array_hash) (i : Nat)
    (hi : i ≠ hash s) :
    hash s = (s.foldl hashStep 23) % SLOT_COUNT ∧
      hash s < SLOT_COUNT ∧
      (insert t s).data i = t.data i := by
  refine ⟨hash_eq_mod s, hash_lt s, ?_⟩
  unfold insert insertCore
  cases hd : t.data (hash s) with
  | none =>
    dsimp only
    rw [Function.update_noteq hi]
  | some recs =>
    dsimp only
    by_cases hc :
        (searchSlot s (toInt16 ((s.length : Int) + 1)) recs 0 == 0) = true
    · rw [if_pos hc]
    · rw [if_neg hc]
      dsimp only
      rw [Function.update_noteq hi]

theorem claim_C7_witness :
    hash [97] = ([97].foldl hashStep 23) % SLOT_COUNT ∧
      hash [97] < SLOT_COUNT ∧
      (insert emptyTable [97]).data 0 = emptyTable.data 0 :=
  claim_C7_hash [97] emptyTable 0 (by decide)

/-- Claim C8: the slot scans of `begin()` and `operator++` do NOT keep
every read inside the slot array.  On the table with no insertions the
`begin()` loop, whose only exit is a non-`NULL` entry, exhausts slots
`0..SLOT_COUNT-1` without stopping (`nextSlot = none` below), so it reads
`data[SLOT_COUNT]` and beyond; and after the last record of a table whose
later slots are all empty, the `operator++` scan exhausts the remaining
slots (second conjunct), so its loop condition reads `data[SLOT_COUNT]`
(the bound is checked only after that read). -/
theorem claim_C8_out_of_bounds :
    iterBegin emptyTable = none ∧
      nextSlot (insert emptyTable [97])
        (SLOT_COUNT - (hash [97] + 1)) (hash [97] + 1) = none := by
  constructor
  · unfold iterBegin
    rw [nextSlot_empty SLOT_COUNT 0]
  · have hs : Proper [97] := by decide
    have hm : [97] ∉ contents emptyTable := by
      rw [contents_empty]
      simp
    have hdata := insert_eq_of_not_mem Wf_empty hs hm
    apply nextSlot_none_of_empty
    intro j hj
    rw [hdata]
    show Function.update emptyTable.data (hash [97]) _ j = none
    rw [Function.update_noteq (by omega)]
    rfl

/-- Claim C9: the empty string is representable and distinguishable from
absence: inserting it stores a record with length field `1` (just the
terminator), after which `find("")` is true and `size()` counts it; on a
table that never received the empty string, `find("")` is false. -/
theorem claim_C9_empty_string (t : array_hash) (hw : Wf t) :
    find (insert t []) [] = true ∧
      ([] ∉ contents t → (insert t [])._size = t._size + 1) ∧
      ([] ∉ contents t → (insert t []).data (hash []) =
        some (getRecs t (hash []) ++ [{ len := 1, bytes := [0] }])) ∧
      ([] ∉ contents t → find t [] = false) := by
  have hp : Proper ([] : List Nat) := by decide
  refine ⟨?_, ?_, ?_, ?_⟩
  · exact (find_iff_mem (Wf_insert hw hp) hp).mpr
      ((mem_contents_insert hw hp []).mpr (Or.inl rfl))
  · intro hm
    rw [insert_eq_of_not_mem hw hp hm]
  · intro hm
    rw [insert_eq_of_not_mem hw hp hm]
    show Function.update t.data (hash []) _ (hash []) = _
    rw [Function.update_same]
    rfl
  · intro hm
    cases hf : find t [] with
    | false => rfl
    | true => exact absurd ((find_iff_mem hw hp).mp hf) hm

theorem claim_C9_witness :
    find (insert emptyTable []) [] = true ∧
      (insert emptyTable [])._size = emptyTable._size + 1 ∧
      (insert emptyTable []).data (hash []) =
        some (getRecs emptyTable (hash []) ++ [{ len := 1, bytes := [0] }]) ∧
      find emptyTable [] = false := by
  have h := claim_C9_empty_string emptyTable Wf_empty
  have hm : ([] : List Nat) ∉ contents emptyTable := by
    rw [contents_empty]
    simp
  exact ⟨h.1, h.2.1 hm, h.2.2.1 hm, h.2.2.2 hm⟩

/-- Claim C10, counterexample: `insert(str, L)` with an explicit nonzero
length argument different from `strlen(str)` -- here `str = "abc"`,
`L = 2` -- appends a record whose length prefix is `L + 1 = 3`, not one
plus the number of bytes of `str` before its terminator (`3 + 1 = 4`):
the prefix does not count the payload `strcpy` actually stored. -/
theorem claim_C10_counterexample :
    (insertE emptyTable [97, 98, 99] 2).data (hash [97, 98]) =
        some [{ len := 3, bytes := [97, 98, 99, 0] }] ∧
      (3 : Int) ≠ (([97, 98, 99] : List Nat).length : Int) + 1 := by
  exact ⟨by decide, by decide⟩

/-- Claim C10 (amended to the documented contract `L = strlen(str)`):
`insert(str, L)` then equals the default-length insert, the appended
record's length prefix is `strlen(str) + 1`, and that prefix equals the
byte count of the payload actually stored (terminator included), so the
record walks of `search` and the cursor read each record at its correct
boundary. -/
theorem claim_C10_explicit_length (t : array_hash) (s : List Nat)
    (hw : Wf t) (hs : Proper s) (h0 : s ≠ []) (hm : s ∉ contents t) :
    insertE t s (s.length : Int) = insert t s ∧
      (insert t s).data (hash s) =
        some (getRecs t (hash s) ++ [newRecord s ((s.length : Int) + 1)]) ∧
      (newRecord s ((s.length : Int) + 1)).len =
        ((newRecord s ((s.length : Int) + 1)).bytes.length : Int) := by
  refine ⟨?_, ?_, ?_⟩
  · unfold insertE insert
    rw [enc_eq hs]
    dsimp only
    have h1 : (((s.length : Int) + 1) - 1).toNat = s.length := by omega
    rw [h1, List.take_length]
  · rw [insert_eq_of_not_mem hw hs hm]
    show Function.update t.data (hash s) _ (hash s) = _
    rw [Function.update_same]
  · simp only [newRecord, List.length_append, List.length_cons,
      List.length_nil]
    push_cast
    ring

theorem claim_C10_witness :
    insertE emptyTable [97] (([97] : List Nat).length : Int) =
        insert emptyTable [97] ∧
      (insert emptyTable [97]).data (hash [97]) =
        some (getRecs emptyTable (hash [97]) ++
          [newRecord [97] ((([97] : List Nat).length : Int) + 1)]) ∧
      (newRecord [97] ((([97] : List Nat).length : Int) + 1)).len =
        ((newRecord [97]
          ((([97] : List Nat).length : Int) + 1)).bytes.length : Int) := by
  have hm : ([97] : List Nat) ∉ contents emptyTable := by
    rw [contents_empty]
    simp
  exact claim_C10_explicit_length emptyTable [97] Wf_empty (by decide)
    (by decide) hm

end stx
